import Mathlib

/-!
Verification of the aithen-ai ingestion and chat-proxy core.

This file shallowly embeds the Python sources under `ai-services/app/`
(`training_service.py`, `routes/training_routes.py`, `ollama_client.py`)
into Lean and proves or refutes the specification's claims about them.

Conventions used throughout:
- Python strings are modelled as `List Char`; Python slicing, `str.strip`,
  `str.startswith` and `str.replace` are modelled by executable functions
  below that follow the CPython semantics (ASCII whitespace).
- Python `int` is `Int` / `Nat`; Python `float` is modelled exactly as an
  IEEE-754 binary64 value represented by the rational it denotes, with a
  correctly-rounding `roundD : ℚ → ℚ` applied after every arithmetic
  operation, as CPython does (normal range only; the quantities involved
  here are percentages, far from overflow/subnormal territory).
- Fallible Python code returns `Except`/`Option`; a `while` loop whose
  termination is data-dependent is given a fuel parameter, `none` meaning
  the loop has not terminated within the given fuel.
-/

namespace Aithen

/-! ## Python string primitives -/

/-- Python ASCII whitespace test used by `str.strip()` (the inputs treated
here are ASCII, where CPython and this predicate agree). -/
def pyWs (c : Char) : Bool := c.isWhitespace

/-- Model of Python `str.strip()` on a character list. -/
def pyStrip (s : List Char) : List Char :=
  ((s.dropWhile pyWs).reverse.dropWhile pyWs).reverse

/-- Normalize one Python slice index `i` against a string of length `l`:
negative indices count from the end, then the result is clamped to `[0,l]`. -/
def pySliceIndex (l : Nat) (i : Int) : Nat :=
  if i < 0 then (max (i + l) 0).toNat else min i.toNat l

/-- Model of Python `s[a:b]` (step 1) on a character list. -/
def pySlice (s : List Char) (a b : Int) : List Char :=
  (s.take (pySliceIndex s.length b)).drop (pySliceIndex s.length a)

/-- Boolean test that `needle` occurs as a contiguous sublist of `hay`
(Python's `needle in hay` on strings). -/
def hasSub (needle : List Char) : List Char → Bool
  | [] => needle.isEmpty
  | c :: rest => needle.isPrefixOf (c :: rest) || hasSub needle rest

/-- Fuel-indexed scanner behind `removeAll`; the fuel bounds the number
of characters still to inspect and is structurally decreasing so that
concrete runs reduce definitionally. -/
def removeAllFuel (needle : List Char) : List Char → Nat → List Char
  | s, 0 => s
  | [], _ + 1 => []
  | c :: rest, fuel + 1 =>
    if needle.isPrefixOf (c :: rest) ∧ needle ≠ [] then
      removeAllFuel needle ((c :: rest).drop needle.length) fuel
    else
      c :: removeAllFuel needle rest fuel

/-- Model of Python `s.replace(needle, "")` for a non-empty `needle`:
scan left to right, deleting each (non-overlapping) occurrence.  The
fuel `s.length` suffices: every step consumes at least one character. -/
def removeAll (needle s : List Char) : List Char :=
  removeAllFuel needle s s.length

/-! ## Chunker (`TrainingService._chunk_text`, training_service.py lines 157-182)

`CHUNK_SIZE` is `W` (`self.chunk_size`), `CHUNK_OVERLAP` is `V`
(`self.chunk_overlap`).  The Python loop variable `start` is an `int` that
can in principle go negative (when `W < V`), so it is an `Int` here.  The
per-chunk metadata copies the incoming file metadata and adds the raw
`chunk_start`/`chunk_end` bounds; only those bounds and the text are
relevant to the claims, so a `Chunk` carries exactly them. -/

structure Chunk where
  text : List Char
  chunk_start : Int
  chunk_end : Int
  deriving DecidableEq

/-- One step of the `while start < text_length` loop of `_chunk_text`,
with fuel; `none` means the loop has not terminated within `fuel`
iterations. -/
def chunkTextLoop (W V : Nat) (text : List Char) : Int → Nat → Option (List Chunk)
  | _, 0 => none
  | start, fuel + 1 =>
    if start < (text.length : Int) then
      let e : Int := start + W
      let ct := pySlice text start e
      match chunkTextLoop W V text (e - V) fuel with
      | none => none
      | some cs =>
        if (pyStrip ct).isEmpty then some cs
        else some ({ text := ct, chunk_start := start, chunk_end := e } :: cs)
    else
      some []

/-- Model of `TrainingService._chunk_text`: the loop starting at offset 0.
The fuel `text.length + 1` is sufficient whenever `V < W` (proved below);
when `W - V ≤ 0` no amount of fuel terminates the loop (also proved
below), matching the infinite loop in the source. -/
def chunk_text (W V : Nat) (text : List Char) : Option (List Chunk) :=
  chunkTextLoop W V text 0 (text.length + 1)

/-! ## Chunker lemmas -/

/-- Dropping while a predicate that is false everywhere keeps the list. -/
lemma dropWhile_eq_self_of (p : Char → Bool) (s : List Char)
    (h : ∀ c ∈ s, p c = false) : s.dropWhile p = s := by
  cases s with
  | nil => rfl
  | cons c rest => simp [List.dropWhile_cons, h c (by simp)]

/-- Stripping a string with no whitespace characters is the identity. -/
lemma pyStrip_eq_self {s : List Char} (h : ∀ c ∈ s, pyWs c = false) :
    pyStrip s = s := by
  unfold pyStrip
  rw [dropWhile_eq_self_of _ _ h, dropWhile_eq_self_of, List.reverse_reverse]
  intro c hc
  exact h c (List.mem_reverse.mp hc)

/-- Python slicing at nonnegative bounds is take/drop. -/
lemma pySlice_natCast (text : List Char) (n k : Nat) :
    pySlice text (n : Int) (k : Int) =
      (text.take (min k text.length)).drop (min n text.length) := by
  unfold pySlice pySliceIndex
  rw [if_neg (by omega), if_neg (by omega)]
  simp

/-- Every character of a Python slice is a character of the sliced string. -/
lemma pySlice_subset (text : List Char) (a b : Int) :
    ∀ c ∈ pySlice text a b, c ∈ text := by
  intro c hc
  exact List.take_subset _ _ (List.drop_subset _ _ hc)

/-- Ceiling-division recurrence justifying one loop iteration of the
chunker. -/
lemma ceil_div_step (R s : Nat) (hR : 1 ≤ R) (hs : 1 ≤ s) :
    (R + s - 1) / s = (R - s + s - 1) / s + 1 := by
  have key : ∀ m : Nat, 1 ≤ m → (m + s - 1) / s = (m - 1) / s + 1 := by
    intro m hm
    have h1 : m + s - 1 = (m - 1) + s := by omega
    rw [h1, Nat.add_div_right _ (by omega)]
  rcases le_or_lt R s with h | h
  · have h0 : R - s = 0 := by omega
    rw [h0, key R hR]
    have ha : (R - 1) / s = 0 := Nat.div_eq_of_lt (by omega)
    have hb : (0 + s - 1) / s = 0 := Nat.div_eq_of_lt (by omega)
    omega
  · rw [key R hR, key (R - s) (by omega)]
    have h3 : R - 1 = (R - s - 1) + s := by omega
    rw [h3, Nat.add_div_right _ (by omega)]

/-- Every chunk the loop ever emits records `chunk_end = chunk_start + W`. -/
lemma chunkTextLoop_end_eq (W V : Nat) (text : List Char) :
    ∀ (fuel : Nat) (start : Int) (cs : List Chunk),
      chunkTextLoop W V text start fuel = some cs →
      ∀ c ∈ cs, c.chunk_end = c.chunk_start + W := by
  intro fuel
  induction fuel with
  | zero => intro start cs h; simp [chunkTextLoop] at h
  | succ fuel ih =>
    intro start cs h
    simp only [chunkTextLoop] at h
    by_cases hlt : start < (text.length : Int)
    · rw [if_pos hlt] at h
      cases hrec : chunkTextLoop W V text (start + ↑W - ↑V) fuel with
      | none => rw [hrec] at h; simp at h
      | some cs' =>
        rw [hrec] at h
        dsimp only at h
        by_cases hemp : (pyStrip (pySlice text start (start + ↑W))).isEmpty = true
        · rw [if_pos hemp] at h
          cases h
          exact ih _ _ hrec
        · rw [if_neg hemp] at h
          cases h
          intro c hc
          rcases List.mem_cons.mp hc with hc | hc
          · subst hc; rfl
          · exact ih _ _ hrec c hc
    · rw [if_neg hlt] at h
      cases h
      intro c hc
      simp at hc

/-- Main loop invariant for an accepted configuration (`V < W`) on a text
with no whitespace: with enough fuel the loop terminates and emits one
chunk per window, i.e. `⌈(L - start)/(W-V)⌉` chunks. -/
lemma chunkTextLoop_count (W V : Nat) (hV : V < W) (text : List Char)
    (hnb : ∀ c ∈ text, pyWs c = false) :
    ∀ (fuel n : Nat), 1 ≤ fuel → text.length < n + fuel →
      ∃ cs, chunkTextLoop W V text (n : Int) fuel = some cs ∧
        cs.length = (text.length - n + (W - V) - 1) / (W - V) := by
  intro fuel
  induction fuel with
  | zero => intro n h1 h2; omega
  | succ fuel ih =>
    intro n h1 h2
    by_cases hn : n < text.length
    · have hlt : (n : Int) < text.length := by exact_mod_cast hn
      have hcast : ((n : Int) + ↑W - ↑V) = ((n + (W - V) : Nat) : Int) := by
        push_cast
        omega
      have hfuel1 : 1 ≤ fuel := by omega
      have hfuel2 : text.length < (n + (W - V)) + fuel := by omega
      obtain ⟨cs, hrec, hlen⟩ := ih (n + (W - V)) hfuel1 hfuel2
      have hslice : pySlice text (n : Int) ((n : Int) + ↑W) =
          (text.take (min (n + W) text.length)).drop (min n text.length) := by
        rw [show ((n : Int) + ↑W) = ((n + W : Nat) : Int) by push_cast; ring]
        exact pySlice_natCast text n (n + W)
      have hctlen : (pySlice text (n : Int) ((n : Int) + ↑W)).length =
          min (n + W) text.length - n := by
        rw [hslice]
        simp
        omega
      have hctne : pySlice text (n : Int) ((n : Int) + ↑W) ≠ [] := by
        intro hmt
        rw [hmt] at hctlen
        simp at hctlen
        omega
      refine ⟨{ text := pySlice text (n : Int) ((n : Int) + ↑W),
                chunk_start := (n : Int), chunk_end := (n : Int) + ↑W } :: cs, ?_, ?_⟩
      · simp only [chunkTextLoop]
        rw [if_pos hlt, hcast, hrec]
        dsimp only
        rw [pyStrip_eq_self (fun c hc => hnb c (pySlice_subset text _ _ c hc)),
          if_neg (by simpa [List.isEmpty_iff] using hctne)]
      · simp only [List.length_cons]
        have hsub : text.length - (n + (W - V)) = text.length - n - (W - V) := by
          omega
        rw [hsub] at hlen
        have hstep := ceil_div_step (text.length - n) (W - V) (by omega) (by omega)
        omega
    · refine ⟨[], ?_, ?_⟩
      · simp only [chunkTextLoop]
        rw [if_neg (by exact_mod_cast hn)]
      · have h0 : text.length - n = 0 := by omega
        rw [h0]
        simp [Nat.div_eq_of_lt (show W - V - 1 < W - V by omega)]

/-! ## Claim theorems about the chunker -/

/-- Claim C2, counterexample: on the text `"ab"` with window `W = 2` and
overlap `V = 1`, the chunker emits 2 chunks, but the claimed formula
`⌈max(0, L−V)/(W−V)⌉` gives 1. -/
theorem chunk_count_claim_cex :
    ∃ cs, chunk_text 2 1 (("ab").data) = some cs ∧
      cs.length ≠ (max 0 ((("ab").data).length - 1) + (2 - 1) - 1) / (2 - 1) := by
  decide

/-- Claim C2 (amended): for `0 ≤ V < W` and a text with no whitespace
characters, the chunker emits `⌈L/(W−V)⌉` chunks (one per loop window),
and every emitted chunk records `chunk_end - chunk_start = W`, the final
chunk included. -/
theorem chunk_text_window_count (W V : Nat) (hV : V < W) (text : List Char)
    (hnb : ∀ c ∈ text, pyWs c = false) :
    ∃ cs, chunk_text W V text = some cs ∧
      cs.length = (text.length + (W - V) - 1) / (W - V) ∧
      ∀ c ∈ cs, c.chunk_end = c.chunk_start + W := by
  obtain ⟨cs, h1, h2⟩ :=
    chunkTextLoop_count W V hV text hnb (text.length + 1) 0 (by omega) (by omega)
  refine ⟨cs, ?_, by simpa using h2,
    chunkTextLoop_end_eq W V text (text.length + 1) ((0 : Nat) : Int) cs h1⟩
  simpa [chunk_text] using h1

/-- Witness for `chunk_text_window_count` at `W = 3`, `V = 1`,
text `"abcd"`: two chunks of recorded width 3. -/
theorem chunk_text_window_count_witness :
    ∃ cs, chunk_text 3 1 (("abcd").data) = some cs ∧
      cs.length = ((("abcd").data).length + (3 - 1) - 1) / (3 - 1) ∧
      ∀ c ∈ cs, c.chunk_end = c.chunk_start + 3 :=
  chunk_text_window_count 3 1 (by decide) (("abcd").data) (by decide)

/-- Claim C5: the configuration `W - V ≤ 0` is not rejected anywhere
(`TrainingService.__init__` performs no validation), and on it the
`_chunk_text` loop never terminates on a non-empty text: no fuel makes the
loop finish. -/
theorem chunk_text_nonterminating (W V : Nat) (hWV : W ≤ V)
    (text : List Char) (hL : 0 < text.length) :
    ∀ fuel, chunkTextLoop W V text 0 fuel = none := by
  suffices h : ∀ (fuel : Nat) (start : Int), start ≤ 0 →
      chunkTextLoop W V text start fuel = none by
    intro fuel
    exact h fuel 0 le_rfl
  intro fuel
  induction fuel with
  | zero => intro start h; rfl
  | succ fuel ih =>
    intro start h
    have hlt : start < (text.length : Int) := by
      have : (0 : Int) < text.length := by exact_mod_cast hL
      omega
    have hnext : start + ↑W - ↑V ≤ 0 := by
      have : (W : Int) ≤ V := by exact_mod_cast hWV
      omega
    simp only [chunkTextLoop]
    rw [if_pos hlt, ih _ hnext]

/-- Witness for `chunk_text_nonterminating`: with `W = V = 200` (equal
window and overlap) on the text `"a"`, 1000 iterations do not finish. -/
theorem chunk_text_nonterminating_witness :
    chunkTextLoop 200 200 (("a").data) 0 1000 = none :=
  chunk_text_nonterminating 200 200 (le_refl 200) (("a").data) (by decide) 1000

/-- Claim C10: every chunk ever emitted records exactly
`chunk_end = chunk_start + W` — the end offset is never clamped to the
text length — and consequently the final chunk's recorded end can exceed
the input length, as on `"abc"` with `W = 2`, `V = 1`. -/
theorem chunk_end_unclamped :
    (∀ (W V : Nat) (text : List Char) (cs : List Chunk),
        chunk_text W V text = some cs →
        ∀ c ∈ cs, c.chunk_end = c.chunk_start + W)
    ∧ (chunk_text 2 1 (("abc").data) =
        some ([⟨(("ab").data), 0, 2⟩, ⟨(("bc").data), 1, 3⟩,
               ⟨(("c").data), 2, 4⟩] : List Chunk) ∧
      ∃ c ∈ ([⟨(("ab").data), 0, 2⟩, ⟨(("bc").data), 1, 3⟩,
              ⟨(("c").data), 2, 4⟩] : List Chunk),
        ((("abc").data).length : Int) < c.chunk_end) := by
  refine ⟨?_, by decide, by decide⟩
  intro W V text cs h
  exact chunkTextLoop_end_eq W V text (text.length + 1) 0 cs h

/-- Witness for the universally quantified part of `chunk_end_unclamped`
at the concrete run `chunk_text 2 1 "ab"`. -/
theorem chunk_end_unclamped_witness :
    ∀ c ∈ [⟨(("ab").data), 0, 2⟩, ⟨(("b").data), 1, 3⟩],
      Chunk.chunk_end c = c.chunk_start + 2 :=
  chunk_end_unclamped.1 2 1 (("ab").data)
    [⟨(("ab").data), 0, 2⟩, ⟨(("b").data), 1, 3⟩] (by decide)

/-! ## Extraction dispatch (`TrainingService.process_file`, training_service.py lines 62-85)

The dispatch reduces to a pure selection from the lowercased file
extension (`Path(file_path).suffix.lower()`) and the declared MIME type;
the chosen branch invokes the corresponding `_extract_*_text` helper, so
the selection is modelled as a value of `Extractor`.  The conditions below
are the branch conditions of the source if/elif chain, in order, with
Python's `sub in s` modelled by `hasSub`. -/

inductive Extractor where
  | pdf
  | docx
  | excel
  | csv
  | jsonText
  | textFile
  deriving DecidableEq

/-- Branch selection of `process_file` (lines 69-83): each `elif` tests the
extension or the declared media type of one format; the final `else` reads
the file as plain text. -/
def selectExtractor (file_ext mime_type : String) : Extractor :=
  if file_ext == ".pdf" || mime_type == "application/pdf" then
    .pdf
  else if file_ext == ".docx" || file_ext == ".doc"
      || hasSub (("wordprocessingml").data) mime_type.data
      || mime_type == "application/msword" then
    .docx
  else if file_ext == ".xlsx" || file_ext == ".xls"
      || hasSub (("spreadsheetml").data) mime_type.data
      || mime_type == "application/vnd.ms-excel"
      || mime_type == "application/vnd.openxmlformats-officedocument.spreadsheetml.sheet" then
    .excel
  else if file_ext == ".csv" || mime_type == "text/csv" then
    .csv
  else if file_ext == ".json" || mime_type == "application/json" then
    .jsonText
  else if file_ext == ".txt" || file_ext == ".md"
      || mime_type == "text/plain" || mime_type == "text/markdown" then
    .textFile
  else
    .textFile

/-- Extension test of each format, exactly the extension disjuncts of the
corresponding source branch. -/
def extMatches (f : Extractor) (file_ext : String) : Bool :=
  match f with
  | .pdf => file_ext == ".pdf"
  | .docx => file_ext == ".docx" || file_ext == ".doc"
  | .excel => file_ext == ".xlsx" || file_ext == ".xls"
  | .csv => file_ext == ".csv"
  | .jsonText => file_ext == ".json"
  | .textFile => file_ext == ".txt" || file_ext == ".md"

/-- Media-type test of each format, exactly the MIME disjuncts of the
corresponding source branch. -/
def mimeMatches (f : Extractor) (mime_type : String) : Bool :=
  match f with
  | .pdf => mime_type == "application/pdf"
  | .docx => hasSub (("wordprocessingml").data) mime_type.data
      || mime_type == "application/msword"
  | .excel => hasSub (("spreadsheetml").data) mime_type.data
      || mime_type == "application/vnd.ms-excel"
      || mime_type == "application/vnd.openxmlformats-officedocument.spreadsheetml.sheet"
  | .csv => mime_type == "text/csv"
  | .jsonText => mime_type == "application/json"
  | .textFile => mime_type == "text/plain" || mime_type == "text/markdown"

/-- Fixed order in which the source checks the formats. -/
def formatOrder : List Extractor :=
  [.pdf, .docx, .excel, .csv, .jsonText, .textFile]

/-- First format in a given order whose extension or media type matches;
`textFile` when none does. -/
def firstMatching : List Extractor → String → String → Extractor
  | [], _, _ => .textFile
  | f :: rest, ext, mime =>
    if extMatches f ext || mimeMatches f mime then f
    else firstMatching rest ext mime

/-- Dispatcher as the specification's words describe it: the extension is
matched first and wins on any conflict with the media type; the media type
is only consulted when no extension matches; plain text is the fallback. -/
def claimedSelect (file_ext mime_type : String) : Extractor :=
  match formatOrder.find? (fun f => extMatches f file_ext) with
  | some f => f
  | none =>
    match formatOrder.find? (fun f => mimeMatches f mime_type) with
    | some f => f
    | none => .textFile

/-- Claim C7, counterexample: for extension `.docx` with declared media
type `application/pdf` the source selects the PDF extractor (the branch
order decides), while the claimed extension-first rule selects DOCX. -/
theorem extractor_claim_cex :
    selectExtractor (".docx") ("application/pdf") = Extractor.pdf ∧
    claimedSelect (".docx") ("application/pdf") = Extractor.docx := by
  decide

/-- Claim C7 (amended): the dispatcher tries the formats in the fixed
order PDF, Word, Excel, CSV, JSON, plain text, selecting the first whose
extension or declared media type matches, with plain text as fallback; a
media type matching an earlier format therefore beats the extension. -/
theorem selectExtractor_first_match (file_ext mime_type : String) :
    selectExtractor file_ext mime_type =
      firstMatching formatOrder file_ext mime_type := by
  simp only [selectExtractor, firstMatching, formatOrder, extMatches,
    mimeMatches, Bool.or_assoc]

/-! ## JSON values and a model of `json.loads`

The chat normalizer and the embedding client manipulate values produced
by Python's `json.loads` / `response.json()`.  `Json` is the value type;
`json_loads` is a recursive-descent parser for the JSON fragment those
call sites exchange (objects, arrays, strings with the single-character
escapes, integers, literals; `\uXXXX` escapes and fractional/exponent
numbers are outside the exchanged fragment and are rejected rather than
parsed).  Python dicts keep the last value bound to a repeated key, which
`pyDictGet` reproduces. -/

inductive Json where
  | null
  | bool (b : Bool)
  | num (n : Int)
  | str (s : String)
  | arr (xs : List Json)
  | obj (fields : List (String × Json))

/-- Skip JSON whitespace. -/
def skipWs (s : List Char) : List Char := s.dropWhile pyWs

/-- Single-character JSON string escapes. -/
def unescape (c : Char) : Option Char :=
  if c = '"' then some '"'
  else if c = '\\' then some '\\'
  else if c = '/' then some '/'
  else if c = 'n' then some '\n'
  else if c = 't' then some '\t'
  else if c = 'r' then some '\r'
  else if c = 'b' then some '\x08'
  else if c = 'f' then some '\x0c'
  else none

/-- Fuel-indexed worker behind `strBody` (structural in the fuel). -/
def strBodyFuel : Nat → List Char → List Char → Option (String × List Char)
  | 0, _, _ => none
  | _ + 1, _, [] => none
  | fuel + 1, acc, c :: rest =>
    if c = '"' then some (⟨acc.reverse⟩, rest)
    else if c = '\\' then
      match rest with
      | [] => none
      | e :: rest2 =>
        match unescape e with
        | none => none
        | some ch => strBodyFuel fuel (ch :: acc) rest2
    else if c.toNat < 32 then none
    else strBodyFuel fuel (c :: acc) rest

/-- Parse the remainder of a JSON string literal (the opening quote is
already consumed), accumulating characters in reverse.  The fuel
`s.length` suffices: every step consumes at least one character. -/
def strBody (acc s : List Char) : Option (String × List Char) :=
  strBodyFuel s.length acc s

/-- Accumulate decimal digits. -/
def digitsToNat (acc : Nat) : List Char → Nat × List Char
  | [] => (acc, [])
  | c :: rest =>
    if c.isDigit then digitsToNat (acc * 10 + (c.toNat - 48)) rest
    else (acc, c :: rest)

/-- Parse an optionally signed integer. -/
def parseIntPart : List Char → Option (Int × List Char)
  | [] => none
  | '-' :: rest =>
    match rest with
    | c :: _ =>
      if c.isDigit then
        let p := digitsToNat 0 rest
        some (-(p.1 : Int), p.2)
      else none
    | [] => none
  | c :: rest =>
    if c.isDigit then
      let p := digitsToNat 0 (c :: rest)
      some ((p.1 : Int), p.2)
    else none

mutual

/-- Parse one JSON value; fuel bounds the recursion depth. -/
def parseVal : Nat → List Char → Option (Json × List Char)
  | 0, _ => none
  | fuel + 1, s =>
    match skipWs s with
    | [] => none
    | c :: rest =>
      if c = '\x7b' then
        match skipWs rest with
        | '\x7d' :: r2 => some (Json.obj [], r2)
        | s2 => parseMembers fuel s2 []
      else if c = '[' then
        match skipWs rest with
        | ']' :: r2 => some (Json.arr [], r2)
        | s2 => parseItems fuel s2 []
      else if c = '"' then
        match strBody [] rest with
        | none => none
        | some (t, r) => some (Json.str t, r)
      else if (("true").data).isPrefixOf (c :: rest) then
        some (Json.bool true, (c :: rest).drop 4)
      else if (("false").data).isPrefixOf (c :: rest) then
        some (Json.bool false, (c :: rest).drop 5)
      else if (("null").data).isPrefixOf (c :: rest) then
        some (Json.null, (c :: rest).drop 4)
      else
        match parseIntPart (c :: rest) with
        | none => none
        | some (n, r) =>
          match r with
          | r0 :: _ =>
            if r0 = '.' ∨ r0 = 'e' ∨ r0 = 'E' then none
            else some (Json.num n, r)
          | [] => some (Json.num n, [])

/-- Parse the members of an object (after `{`, at a key). -/
def parseMembers : Nat → List Char → List (String × Json) → Option (Json × List Char)
  | 0, _, _ => none
  | fuel + 1, s, acc =>
    match skipWs s with
    | '"' :: rest =>
      match strBody [] rest with
      | none => none
      | some (k, r1) =>
        match skipWs r1 with
        | ':' :: r2 =>
          match parseVal fuel r2 with
          | none => none
          | some (v, r3) =>
            match skipWs r3 with
            | ',' :: r4 => parseMembers fuel r4 (acc ++ [(k, v)])
            | '\x7d' :: r4 => some (Json.obj (acc ++ [(k, v)]), r4)
            | _ => none
        | _ => none
    | _ => none

/-- Parse the items of an array (after `[`, at a value). -/
def parseItems : Nat → List Char → List Json → Option (Json × List Char)
  | 0, _, _ => none
  | fuel + 1, s, acc =>
    match parseVal fuel s with
    | none => none
    | some (v, r1) =>
      match skipWs r1 with
      | ',' :: r2 => parseItems fuel r2 (acc ++ [v])
      | ']' :: r2 => some (Json.arr (acc ++ [v]), r2)
      | _ => none

end

/-- Model of `json.loads`: parse one value and require only whitespace to
remain.  The fuel `2 * length + 2` exceeds the recursion depth of any
parse, every recursive step having consumed at least one character. -/
def json_loads (s : List Char) : Option Json :=
  match parseVal (2 * s.length + 2) s with
  | none => none
  | some (v, rest) => if (skipWs rest).isEmpty then some v else none

/-- Python `dict.get`/`in` on a parsed object: the last binding of a
repeated key wins, as in a Python dict built by `json.loads`. -/
def pyDictGet (fields : List (String × Json)) (k : String) : Option Json :=
  match fields.reverse.find? (fun p => p.1 == k) with
  | some p => some p.2
  | none => none

/-! ## Chat stream normalizer (`OllamaClient.stream_chat`, ollama_client.py lines 27-55)

A network stream is modelled by the list of framed lines the upstream
service delivers; `stream_chat` maps it to the list of content deltas the
generator yields (in order).  Transport is elided; the per-line pipeline
— skip blank lines, strip, remove the `"data: "` marker via Python
`str.replace`, stop at a sentinel, skip unparseable lines, yield the
nested content field when present — is the source's, line by line.
When a parsed line is a non-object, or its `message` field is not an
object, the source yields nothing for that line (the `in` test fails or
no content key exists), modelled by `extractDelta` returning `none`. -/

def dataMark : List Char := ("data: ").data

/-- Lines 38-40 of the source: strip the line, and when it starts with
`"data: "` delete every occurrence of it (`str.replace` replaces all,
not only the leading one). -/
def cleanLine (l : List Char) : List Char :=
  let t := pyStrip l
  if dataMark.isPrefixOf t then removeAll dataMark t else t

/-- Line 43: the end-of-stream sentinels. -/
def isDoneMark (l : List Char) : Bool :=
  l == ("[DONE]").data || l == ("done").data || l == ("DONE").data

/-- Lines 52-53: yield `data["message"]["content"]` when both keys are
present. -/
def extractDelta (d : Json) : Option Json :=
  match d with
  | Json.obj fields =>
    match pyDictGet fields ("message") with
    | some (Json.obj m) => pyDictGet m ("content")
    | _ => none
  | _ => none

/-- The normalizer: one pass over the upstream lines, yielding deltas. -/
def stream_chat : List (List Char) → List Json
  | [] => []
  | l :: rest =>
    if (pyStrip l).isEmpty then stream_chat rest
    else
      let cl := cleanLine l
      if isDoneMark cl then []
      else
        match json_loads cl with
        | none => stream_chat rest
        | some d =>
          match extractDelta d with
          | some v => v :: stream_chat rest
          | none => stream_chat rest

/-! ## Claim theorems about the chat stream normalizer -/

/-- Deleting a needle that does not occur leaves the string unchanged
(fuel version). -/
lemma removeAllFuel_of_hasSub_eq_false (needle : List Char) :
    ∀ (fuel : Nat) (s : List Char), s.length ≤ fuel →
      hasSub needle s = false → removeAllFuel needle s fuel = s := by
  intro fuel
  induction fuel with
  | zero =>
    intro s hlen _
    have hs : s = [] := List.eq_nil_of_length_eq_zero (by omega)
    subst hs
    rfl
  | succ fuel ih =>
    intro s hlen h
    cases s with
    | nil => rfl
    | cons c rest =>
      simp only [hasSub, Bool.or_eq_false_iff] at h
      simp only [removeAllFuel]
      rw [if_neg (fun hc => by simp [h.1] at hc)]
      have hr : rest.length ≤ fuel := by
        simp only [List.length_cons] at hlen
        omega
      rw [ih rest hr h.2]

/-- Deleting a needle that does not occur leaves the string unchanged. -/
lemma removeAll_of_hasSub_eq_false (needle s : List Char)
    (h : hasSub needle s = false) : removeAll needle s = s :=
  removeAllFuel_of_hasSub_eq_false needle s.length s le_rfl h

/-- Deleting from `needle ++ s` when the needle does not occur in `s`
deletes exactly the leading occurrence. -/
lemma removeAll_append_strip (needle : List Char) (hne : needle ≠ [])
    (s : List Char) (h : hasSub needle s = false) :
    removeAll needle (needle ++ s) = s := by
  obtain ⟨d, ds, rfl⟩ : ∃ d ds, needle = d :: ds := by
    cases needle with
    | nil => exact absurd rfl hne
    | cons d ds => exact ⟨d, ds, rfl⟩
  show removeAllFuel (d :: ds) ((d :: ds) ++ s) ((d :: ds) ++ s).length = s
  have hl : ((d :: ds) ++ s).length = ds.length + s.length + 1 := by
    rw [List.cons_append, List.length_cons, List.length_append]
  rw [hl, List.cons_append]
  simp only [removeAllFuel]
  have hp : (d :: ds).isPrefixOf (d :: (ds ++ s)) = true := by
    rw [List.isPrefixOf_iff_prefix, ← List.cons_append]
    exact List.prefix_append _ _
  rw [if_pos ⟨hp, by simp⟩]
  have hdrop : (d :: (ds ++ s)).drop (d :: ds).length = s := by
    rw [← List.cons_append]
    exact List.drop_left _ _
  rw [hdrop]
  exact removeAllFuel_of_hasSub_eq_false _ _ _ (by omega) h

/-- Upstream line carrying an inner `"data: "` inside its JSON payload. -/
def c9Line : List Char :=
  ("data: \x7b\"message\":\x7b\"content\":\"data: x\"\x7d\x7d").data

/-- Claim C9, counterexample: on a line whose payload contains the text
`"data: "`, the normalizer yields `"x"` — the inner occurrence is deleted
by the replace-all cleanup, not preserved as the claim states. -/
theorem ollama_marker_claim_cex :
    stream_chat [c9Line] = [Json.str ("x")] ∧
    Json.str ("x") ≠ Json.str ("data: x") := by
  refine ⟨rfl, fun h => ?_⟩
  injection h with h'
  exact absurd h' (by decide)

/-- Claim C9 (amended): the cleanup deletes every occurrence of
`"data: "` in a line that starts with it (Python `str.replace` replaces
all occurrences), so it acts as a single leading-marker strip exactly on
lines whose remainder contains no further `"data: "`; an occurrence
inside the payload is deleted from the yielded delta, as the second
conjunct shows on a concrete line. -/
theorem cleanLine_removes_every_marker :
    (∀ s : List Char, hasSub dataMark s = false →
        pyStrip (dataMark ++ s) = dataMark ++ s →
        cleanLine (dataMark ++ s) = s)
    ∧ stream_chat [c9Line] = [Json.str ("x")] := by
  refine ⟨fun s h1 h2 => ?_, rfl⟩
  simp only [cleanLine, h2]
  rw [if_pos (by rw [List.isPrefixOf_iff_prefix]; exact List.prefix_append _ _)]
  exact removeAll_append_strip dataMark (by decide) s h1

/-- Witness for `cleanLine_removes_every_marker` on the line
`"data: {}"`. -/
theorem cleanLine_removes_every_marker_witness :
    cleanLine (dataMark ++ ("\x7b\x7d").data) = ("\x7b\x7d").data :=
  cleanLine_removes_every_marker.1 (("\x7b\x7d").data) (by decide) (by decide)

/-- The five upstream lines of the sentinel test. -/
def c8Lines : List (List Char) :=
  [("data: \x7b\"message\":\x7b\"content\":\"a\"\x7d\x7d").data,
   ("garbage\x7b\x7b").data,
   ("data: \x7b\"message\":\x7b\"content\":\"b\"\x7d\x7d").data,
   ("[DONE]").data,
   ("data: \x7b\"message\":\x7b\"content\":\"c\"\x7d\x7d").data]

/-- Claim C8: on the given upstream lines the normalizer yields exactly
`"a"`, `"b"` — the garbage line is skipped — and the `[DONE]` sentinel
stops the stream before `"c"`. -/
theorem stream_chat_sentinel_run :
    stream_chat c8Lines = [Json.str ("a"), Json.str ("b")] := rfl

/-! ## Embedding client (`TrainingService.generate_embedding`, training_service.py lines 184-201)

The single HTTP interaction is modelled by its outcome: either the
request itself failed in transport (any exception out of `client.post`),
or a response arrived with a status code and an already-parsed JSON body
(`response.json()`; a body that is not JSON also raises and is a
transport-level failure here).  `raise_for_status` raises exactly on
status ≥ 400.  `data.get("embedding", [])` requires `data` to be a dict —
on any other body `.get` raises `AttributeError`, caught by the same
`except` — and returns `[]` when the key is missing. -/

inductive HttpResult where
  | transportFail (msg : String)
  | success (status : Nat) (body : Json)

/-- Model of `generate_embedding`: every raised exception is wrapped into
the `"Error generating embedding: "` message and surfaces as `.error`. -/
def generate_embedding (r : HttpResult) : Except String Json :=
  match r with
  | .transportFail msg => .error (("Error generating embedding: ") ++ msg)
  | .success status body =>
    if 400 ≤ status then
      .error (("Error generating embedding: ") ++ ("status error"))
    else
      match body with
      | Json.obj fields =>
        match pyDictGet fields ("embedding") with
        | some v => .ok v
        | none => .ok (Json.arr [])
      | _ => .error (("Error generating embedding: ") ++ ("attribute error"))

/-- Claim C6, counterexample: a success response whose object body lacks
the `embedding` field does not fail — the client returns the empty
vector (the `.get` default), not an `EmbeddingServiceError`. -/
theorem generate_embedding_claim_cex :
    generate_embedding (HttpResult.success 200 (Json.obj [])) =
      Except.ok (Json.arr []) := rfl

/-- Claim C6 (amended): the client fails on any transport failure and on
any non-success (≥ 400) response, but a success response carrying an
object body never fails: it returns the `embedding` field when present
and the empty vector when the field is missing. -/
theorem generate_embedding_amended (r : HttpResult) :
    (∀ msg, r = .transportFail msg → (generate_embedding r).isOk = false)
    ∧ (∀ st body, r = .success st body → 400 ≤ st →
        (generate_embedding r).isOk = false)
    ∧ (∀ st fields, r = .success st (Json.obj fields) → st < 400 →
        generate_embedding r =
          Except.ok ((pyDictGet fields ("embedding")).getD (Json.arr []))) := by
  refine ⟨?_, ?_, ?_⟩
  · rintro msg rfl
    rfl
  · rintro st body rfl hst
    simp only [generate_embedding, if_pos hst]
    rfl
  · rintro st fields rfl hst
    have hne : ¬ 400 ≤ st := by omega
    simp only [generate_embedding, if_neg hne]
    cases h : pyDictGet fields ("embedding") <;> simp [h]

/-- Witness for `generate_embedding_amended`: a 500 response fails, and a
200 response with body `{"embedding": [1]}` returns that field. -/
theorem generate_embedding_amended_witness :
    (generate_embedding (HttpResult.success 500 Json.null)).isOk = false ∧
    generate_embedding
        (HttpResult.success 200
          (Json.obj [(("embedding"), Json.arr [Json.num 1])])) =
      Except.ok ((pyDictGet [(("embedding"), Json.arr [Json.num 1])]
        ("embedding")).getD (Json.arr [])) :=
  ⟨(generate_embedding_amended (HttpResult.success 500 Json.null)).2.1
      500 Json.null rfl (by omega),
   (generate_embedding_amended (HttpResult.success 200
        (Json.obj [(("embedding"), Json.arr [Json.num 1])]))).2.2
      200 [(("embedding"), Json.arr [Json.num 1])] rfl (by omega)⟩

/-! ## Vector store writer (`TrainingService.store_embedding`, training_service.py lines 203-275)

The SQL statement is an `INSERT ... ON CONFLICT (knowledge_base_version_id,
knowledge_base_file_id, chunk_index) DO UPDATE SET chunk_text, embedding,
metadata, updated_at`.  The table is modelled as the list of its rows and
the statement by its standard semantics against the unique natural key:
update the matching row in place when one exists, append a fresh row
otherwise.  The float vector is carried in its serialized form
(`embedding_str`), the timestamps `NOW()` as an abstract clock value, and
the generated `embedding_id` as an arbitrary caller-supplied identifier
(its collisions are irrelevant to conflict resolution, which the key
columns drive). -/

structure EmbeddingRecord where
  id : Int
  knowledge_base_id : Int
  knowledge_base_version_id : Int
  knowledge_base_file_id : Int
  chunk_index : Int
  chunk_text : String
  embedding : String
  metadata : Json
  created_at : Nat
  updated_at : Nat

/-- The conflict key of the SQL statement. -/
def naturalKey (r : EmbeddingRecord) : Int × Int × Int :=
  (r.knowledge_base_version_id, r.knowledge_base_file_id, r.chunk_index)

/-- Arguments of one `store_embedding` call. -/
structure StoreArgs where
  knowledge_base_id : Int
  version_id : Int
  file_id : Int
  chunk_index : Int
  chunk_text : String
  embedding : String
  metadata : Json

/-- Natural key the call's row would occupy. -/
def argsKey (a : StoreArgs) : Int × Int × Int :=
  (a.version_id, a.file_id, a.chunk_index)

/-- Number of rows holding a given natural key. -/
def countKey (table : List EmbeddingRecord) (k : Int × Int × Int) : Nat :=
  (table.filter (fun r => decide (naturalKey r = k))).length

/-- One `store_embedding` call against the table: the upsert semantics of
the source's `INSERT ... ON CONFLICT ... DO UPDATE`. -/
def store_embedding (table : List EmbeddingRecord) (embedding_id : Int)
    (now : Nat) (a : StoreArgs) : List EmbeddingRecord :=
  if table.any (fun r => decide (naturalKey r = argsKey a)) then
    table.map (fun r =>
      if naturalKey r = argsKey a then
        { r with chunk_text := a.chunk_text, embedding := a.embedding,
                 metadata := a.metadata, updated_at := now }
      else r)
  else
    table ++ [{ id := embedding_id, knowledge_base_id := a.knowledge_base_id,
                knowledge_base_version_id := a.version_id,
                knowledge_base_file_id := a.file_id,
                chunk_index := a.chunk_index, chunk_text := a.chunk_text,
                embedding := a.embedding, metadata := a.metadata,
                created_at := now, updated_at := now }]

/-- A sequence of upserts applied in order. -/
def upsertAll (table : List EmbeddingRecord) :
    List (Int × Nat × StoreArgs) → List EmbeddingRecord
  | [] => table
  | (gid, now, a) :: ops => upsertAll (store_embedding table gid now a) ops

/-! ## Vector store lemmas and claim C4 -/

/-- A key-preserving row transformation does not change key counts. -/
lemma countKey_map (f : EmbeddingRecord → EmbeddingRecord)
    (hf : ∀ r, naturalKey (f r) = naturalKey r)
    (table : List EmbeddingRecord) (k : Int × Int × Int) :
    countKey (table.map f) k = countKey table k := by
  unfold countKey
  rw [List.filter_map, List.length_map]
  congr 1
  apply List.filter_congr
  intro r _
  simp [Function.comp, hf r]

/-- When no row matches the key, the key count is zero. -/
lemma countKey_eq_zero_of_any_false (table : List EmbeddingRecord)
    (k : Int × Int × Int)
    (h : table.any (fun r => decide (naturalKey r = k)) = false) :
    countKey table k = 0 := by
  unfold countKey
  have : table.filter (fun r => decide (naturalKey r = k)) = [] := by
    rw [List.filter_eq_nil_iff]
    intro r hr
    have := List.any_eq_false.mp h r hr
    simpa using this
  rw [this]
  rfl

/-- One upsert preserves the at-most-one-row-per-key invariant. -/
lemma countKey_store_le (table : List EmbeddingRecord) (gid : Int)
    (now : Nat) (a : StoreArgs) (hinv : ∀ k, countKey table k ≤ 1) :
    ∀ k, countKey (store_embedding table gid now a) k ≤ 1 := by
  intro k
  unfold store_embedding
  by_cases hany : table.any (fun r => decide (naturalKey r = argsKey a)) = true
  · rw [if_pos hany, countKey_map]
    · exact hinv k
    · intro r
      by_cases hk : naturalKey r = argsKey a
      · rw [if_pos hk]
        rfl
      · rw [if_neg hk]
  · rw [if_neg hany]
    unfold countKey
    rw [List.filter_append, List.length_append]
    have h0 := countKey_eq_zero_of_any_false table (argsKey a)
      (Bool.eq_false_iff.mpr hany)
    by_cases hk : argsKey a = k
    · subst hk
      unfold countKey at h0
      refine le_trans
        (Nat.add_le_add (le_of_eq h0) (List.length_filter_le _ _)) ?_
      simp
    · have : ([{ id := gid, knowledge_base_id := a.knowledge_base_id,
                 knowledge_base_version_id := a.version_id,
                 knowledge_base_file_id := a.file_id,
                 chunk_index := a.chunk_index, chunk_text := a.chunk_text,
                 embedding := a.embedding, metadata := a.metadata,
                 created_at := now, updated_at := now }] :
          List EmbeddingRecord).filter (fun r => decide (naturalKey r = k))
          = [] := by
        rw [List.filter_eq_nil_iff]
        intro r hr
        simp only [List.mem_singleton] at hr
        subst hr
        simpa [naturalKey, argsKey] using
          fun hkk => hk (by simpa [argsKey] using hkk)
      rw [this]
      simpa using hinv k

/-- The invariant holds along any sequence of upserts. -/
lemma upsertAll_inv (ops : List (Int × Nat × StoreArgs)) :
    ∀ table, (∀ k, countKey table k ≤ 1) →
      ∀ k, countKey (upsertAll table ops) k ≤ 1 := by
  induction ops with
  | nil => intro table h k; exact h k
  | cons op ops ih =>
    intro table h k
    obtain ⟨gid, now, a⟩ := op
    exact ih _ (countKey_store_le table gid now a h) k

/-- Claim C4: the store keeps at most one row per natural key under any
sequence of upserts from an empty table, and an upsert hitting an
existing key rewrites that row's chunk text, embedding, metadata and
update timestamp in place — the row count does not grow and the row keeps
its identifier and creation timestamp. -/
theorem store_embedding_upsert :
    (∀ (ops : List (Int × Nat × StoreArgs)) (k : Int × Int × Int),
        countKey (upsertAll [] ops) k ≤ 1)
    ∧ (∀ (table : List EmbeddingRecord) (gid : Int) (now : Nat)
          (a : StoreArgs), 1 ≤ countKey table (argsKey a) →
        (store_embedding table gid now a).length = table.length ∧
        ∀ r ∈ store_embedding table gid now a, naturalKey r = argsKey a →
          r.chunk_text = a.chunk_text ∧ r.embedding = a.embedding ∧
          r.metadata = a.metadata ∧ r.updated_at = now ∧
          ∃ r0 ∈ table, naturalKey r0 = argsKey a ∧
            r.id = r0.id ∧ r.created_at = r0.created_at) := by
  constructor
  · intro ops k
    exact upsertAll_inv ops [] (fun _ => by simp [countKey]) k
  · intro table gid now a hcount
    have hany : table.any (fun r => decide (naturalKey r = argsKey a)) = true := by
      cases hb : table.any (fun r => decide (naturalKey r = argsKey a)) with
      | true => rfl
      | false =>
        have := countKey_eq_zero_of_any_false table (argsKey a) hb
        omega
    constructor
    · unfold store_embedding
      rw [if_pos hany, List.length_map]
    · intro r hr hkey
      unfold store_embedding at hr
      rw [if_pos hany] at hr
      obtain ⟨r0, hr0, rfl⟩ := List.mem_map.mp hr
      by_cases hk0 : naturalKey r0 = argsKey a
      · rw [if_pos hk0]
        exact ⟨rfl, rfl, rfl, rfl, r0, hr0, hk0, rfl, rfl⟩
      · rw [if_neg hk0] at hkey
        exact absurd hkey hk0

/-- Concrete row and re-ingestion arguments for the upsert witness. -/
def upsertRow : EmbeddingRecord :=
  { id := 1, knowledge_base_id := 10, knowledge_base_version_id := 20,
    knowledge_base_file_id := 30, chunk_index := 0,
    chunk_text := ("old text"), embedding := ("[0.1]"),
    metadata := Json.null, created_at := 5, updated_at := 5 }

/-- Re-ingestion of the same version/file/chunk with different text. -/
def upsertArgs : StoreArgs :=
  { knowledge_base_id := 10, version_id := 20, file_id := 30,
    chunk_index := 0, chunk_text := ("new text"),
    embedding := ("[0.2]"), metadata := Json.bool true }

/-- Witness for `store_embedding_upsert` on a one-row table re-ingested
with different text: the row count stays 1 and the row is rewritten. -/
theorem store_embedding_upsert_witness :
    (store_embedding [upsertRow] 99 7 upsertArgs).length =
      ([upsertRow] : List EmbeddingRecord).length ∧
    ∀ r ∈ store_embedding [upsertRow] 99 7 upsertArgs,
      naturalKey r = argsKey upsertArgs →
      r.chunk_text = upsertArgs.chunk_text ∧
      r.embedding = upsertArgs.embedding ∧
      r.metadata = upsertArgs.metadata ∧ r.updated_at = 7 ∧
      ∃ r0 ∈ [upsertRow], naturalKey r0 = argsKey upsertArgs ∧
        r.id = r0.id ∧ r.created_at = r0.created_at :=
  store_embedding_upsert.2 [upsertRow] 99 7 upsertArgs (by decide)

/-! ## Exact model of CPython float (IEEE-754 binary64) arithmetic

The orchestrator's progress percentages are computed with Python floats.
A binary64 value is represented exactly by the rational it denotes, kept
as an unreduced fraction `Frac` with positive denominator (every
constructor below preserves that sign convention).  `roundD` is
round-to-nearest, ties-to-even, at 53 bits of precision — exactly the
rounding CPython applies after `/`, `+` and `*` on floats and when
dividing two ints with `/` — restricted to the normal range (the
quantities in the progress formulas are percentages and their
fragments, far away from overflow and subnormal territory). -/

structure Frac where
  num : Int
  den : Int

/-- Comparison of fractions with positive denominators. -/
def fracLe (a b : Frac) : Bool := decide (a.num * b.den ≤ b.num * a.den)

/-- Fuel-driven binary logarithm on `Nat` (`⌊log₂ n⌋`, 0 for `n ≤ 1`). -/
def natLog2Go : Nat → Nat → Nat
  | 0, _ => 0
  | fuel + 1, n => if 2 ≤ n then natLog2Go fuel (n / 2) + 1 else 0

/-- Floor of the binary logarithm. -/
def natLog2 (n : Nat) : Nat := natLog2Go n n

/-- The fraction `2 ^ e`. -/
def pow2 (e : Int) : Frac :=
  if 0 ≤ e then ⟨2 ^ e.toNat, 1⟩ else ⟨1, 2 ^ (-e).toNat⟩

/-- Greatest `e` with `2 ^ e ≤ q`, for a positive fraction `q`:
`⌊log₂ num⌋ - ⌊log₂ den⌋` is off by at most one, fixed by one
comparison. -/
def ilog2 (q : Frac) : Int :=
  let a : Int := natLog2 q.num.toNat
  let b : Int := natLog2 q.den.toNat
  if fracLe (pow2 (a - b)) q then a - b else a - b - 1

/-- Round `num / den` (for `den > 0`) to the nearest integer, ties to
even; `/` on `Int` is floor division for a positive divisor. -/
def roundHalfEvenInt (num den : Int) : Int :=
  let f := num / den
  let r := num - f * den
  if 2 * r < den then f
  else if den < 2 * r then f + 1
  else if f % 2 = 0 then f else f + 1

/-- Round a positive fraction to 53 significant bits: scale into
`[2^52, 2^53)`, round to an integer significand (ties to even), scale
back. -/
def roundPos (q : Frac) : Frac :=
  let e := ilog2 q
  let m : Frac :=
    if 0 ≤ (52 - e : Int) then ⟨q.num * 2 ^ (52 - e).toNat, q.den⟩
    else ⟨q.num, q.den * 2 ^ (e - 52).toNat⟩
  let n := roundHalfEvenInt m.num m.den
  if 0 ≤ (e - 52 : Int) then ⟨n * 2 ^ (e - 52).toNat, 1⟩
  else ⟨n, 2 ^ (52 - e).toNat⟩

/-- Correctly rounded binary64 value of a fraction. -/
def roundD (q : Frac) : Frac :=
  if q.num = 0 then ⟨0, 1⟩
  else if q.num < 0 then
    let r := roundPos ⟨-q.num, q.den⟩
    ⟨-r.num, r.den⟩
  else roundPos q

/-- Exact float of an `int` (our operands stay below 2^53). -/
def fofInt (n : Int) : Frac := ⟨n, 1⟩

/-- Float addition. -/
def fadd (a b : Frac) : Frac :=
  roundD ⟨a.num * b.den + b.num * a.den, a.den * b.den⟩

/-- Float multiplication. -/
def fmul (a b : Frac) : Frac :=
  roundD ⟨a.num * b.num, a.den * b.den⟩

/-- Float (true) division, also of two Python ints. -/
def fdiv (a b : Frac) : Frac :=
  if b.num = 0 then ⟨0, 1⟩
  else if b.num < 0 then roundD ⟨-(a.num * b.den), a.den * (-b.num)⟩
  else roundD ⟨a.num * b.den, a.den * b.num⟩

/-- Python `int(x)`: truncation toward zero. -/
def pyInt (q : Frac) : Int :=
  if 0 ≤ q.num then q.num / q.den else -((-q.num) / q.den)

/-! ## Ingestion orchestrator (`stream_training.generate_progress`, training_routes.py lines 56-249)

The async generator is modelled as a pure function from a job description
to the ordered list of events it yields.  A `FileScript` abstracts what
the outside world does for one file: extraction (`process_file`) either
raises or produces `C` chunks, and the embed/store calls for chunk `j`
either succeed or the first of them raises at some chunk index (a
storage failure surfaces exactly like an embedding failure, because the
`storing` event for a chunk is only emitted after its successful store).
Events keep the fields the claims speak about: the type tag, the status,
`current_file`, the overall percentage (absent from `error` events, as
in the source dicts) and the `file_details` snapshot serialized at yield
time; names, sizes, timestamps and the job-grouping passthrough fields
are dropped as claim-irrelevant payload.  The percentage arithmetic is
supplied by a `PctModel`: `floatPct` is the source's arithmetic (Python
floats, modelled exactly by `roundD`), while `exactPct` evaluates the
same formulas in exact arithmetic (`⌊100·x⌋`), as the specification
writes them. -/

inductive FStatus where
  | processing
  | embedding
  | storing
  | completed
  | failed
  deriving DecidableEq

inductive EType where
  | progress
  | error
  | complete
  deriving DecidableEq

structure FileDetail where
  status : FStatus
  chunks_total : Nat
  chunks_done : Nat
  percentage : Int
  error : Option String
  deriving DecidableEq

structure Event where
  etype : EType
  status : Option FStatus
  current_file : Nat
  percentage : Option Int
  file_details : List FileDetail
  deriving DecidableEq

/-- The four percentage formulas of the source, as functions of the file
index `i` (1-based), file count `F`, chunk count `C` and chunk index `j`
(1-based). -/
structure PctModel where
  processing : Nat → Nat → Int
  chunkPct : Nat → Nat → Nat → Nat → Int
  completed : Nat → Nat → Int
  filePct : Nat → Nat → Int

/-- The source's percentages: Python float arithmetic, truncated by
`int(...)`. -/
def floatPct : PctModel where
  processing F i :=
    pyInt (fmul (fdiv (fofInt ((i : Int) - 1)) (fofInt (F : Int))) (fofInt 100))
  chunkPct F i C j :=
    pyInt (fmul (fadd (fdiv (fofInt ((i : Int) - 1)) (fofInt (F : Int)))
      (fdiv (fdiv (fofInt (j : Int)) (fofInt (C : Int))) (fofInt (F : Int))))
      (fofInt 100))
  completed F i :=
    pyInt (fmul (fdiv (fofInt (i : Int)) (fofInt (F : Int))) (fofInt 100))
  filePct C j :=
    pyInt (fmul (fdiv (fofInt (j : Int)) (fofInt (C : Int))) (fofInt 100))

/-- The same formulas in exact arithmetic: `⌊100·x⌋` of the exact
rational. -/
def exactPct : PctModel where
  processing F i := (((i - 1) * 100) / F : Nat)
  chunkPct F i C j := ((((i - 1) * C + j) * 100) / (C * F) : Nat)
  completed F i := ((i * 100) / F : Nat)
  filePct C j := ((j * 100) / C : Nat)

/-- What one file's processing does: extraction raises, or yields `C`
chunks with an optional first failure at chunk `j₀` (the flag records
whether the embedding or the storage call raised; both surface
identically in the event stream). -/
inductive FileScript where
  | extractFail (msg : String)
  | run (chunksTotal : Nat) (failure : Option (Nat × Bool × String))

/-- The dict the source builds before announcing a file. -/
def initDetail : FileDetail :=
  { status := .processing, chunks_total := 0, chunks_done := 0,
    percentage := 0, error := none }

/-- The per-chunk loop (source lines 121-186) from chunk `j`, running
`remaining` more iterations; returns the yielded events, the updated
detail list, and whether the loop ran to completion. -/
def chunkEventsLoop (p : PctModel) (F i C : Nat)
    (failure : Option (Nat × Bool × String)) (ds : List FileDetail)
    (j : Nat) : Nat → List Event × List FileDetail × Bool
  | 0 => ([], ds, true)
  | remaining + 1 =>
    let d1 : FileDetail :=
      { status := .embedding, chunks_total := C, chunks_done := j,
        percentage := p.filePct C j, error := none }
    let ds1 := ds.set (i - 1) d1
    let evEmbed : Event :=
      ⟨.progress, some .embedding, i, some (p.chunkPct F i C j), ds1⟩
    let failsHere : Option String :=
      match failure with
      | some (j0, _, msg) => if j0 = j then some msg else none
      | none => none
    match failsHere with
    | some msg =>
      let d2 : FileDetail := { d1 with status := .failed, error := some msg }
      let ds2 := ds1.set (i - 1) d2
      ([evEmbed, ⟨.error, none, i, none, ds2⟩], ds2, false)
    | none =>
      let d3 : FileDetail := { d1 with status := .storing }
      let ds3 := ds1.set (i - 1) d3
      let evStore : Event :=
        ⟨.progress, some .storing, i, some (p.chunkPct F i C j), ds3⟩
      let r := chunkEventsLoop p F i C failure ds3 (j + 1) remaining
      (evEmbed :: evStore :: r.1, r.2)

/-- The file's detail after `process_file` returned `C` chunks (line
118: only `chunks_total` is updated, with no event until the first
chunk). -/
def chunksInit (C : Nat) : FileDetail :=
  { status := .processing, chunks_total := C, chunks_done := 0,
    percentage := 0, error := none }

/-- Processing of one file (source lines 66-231): announce it, run its
script, and either complete it or record the failure and its single
`error` event. -/
def fileEvents (p : PctModel) (F i : Nat) (script : FileScript)
    (ds : List FileDetail) : List Event × List FileDetail :=
  let ds0 := ds ++ [initDetail]
  let evStart : Event :=
    ⟨.progress, some .processing, i, some (p.processing F i), ds0⟩
  match script with
  | .extractFail msg =>
    let d1 : FileDetail := { initDetail with status := .failed, error := some msg }
    let ds1 := ds0.set (i - 1) d1
    ([evStart, ⟨.error, none, i, none, ds1⟩], ds1)
  | .run C failure =>
    match chunkEventsLoop p F i C failure (ds0.set (i - 1) (chunksInit C)) 1 C with
    | (evs, ds1, true) =>
      let dcur := ds1.getD (i - 1) initDetail
      let d2 : FileDetail := { dcur with status := .completed, percentage := 100 }
      let ds2 := ds1.set (i - 1) d2
      (evStart :: evs ++
        [⟨.progress, some .completed, i, some (p.completed F i), ds2⟩], ds2)
    | (evs, ds1, false) => (evStart :: evs, ds1)

/-- The per-file loop over the job's files. -/
def filesLoop (p : PctModel) (F : Nat) :
    Nat → List FileScript → List FileDetail → List Event × List FileDetail
  | _, [], ds => ([], ds)
  | i, script :: rest, ds =>
    let r1 := fileEvents p F i script ds
    let r2 := filesLoop p F (i + 1) rest r1.2
    (r1.1 ++ r2.1, r2.2)

/-- The terminal `complete` event (source lines 234-242; it carries no
`file_details`). -/
def completeEvent (F : Nat) : Event :=
  ⟨.complete, some .completed, F, some 100, []⟩

/-- The whole generator: per-file events, then the terminal event. -/
def generate_progress (p : PctModel) (scripts : List FileScript) : List Event :=
  (filesLoop p scripts.length 1 scripts []).1 ++ [completeEvent scripts.length]

/-- Whether a script makes its file fail (its failure point is actually
reached). -/
def scriptFails : FileScript → Bool
  | .extractFail _ => true
  | .run C failure =>
    match failure with
    | some (j0, _, _) => decide (1 ≤ j0 ∧ j0 ≤ C)
    | none => false

/-- Well-formedness: a declared chunk failure points at an existing
chunk. -/
def WfScript : FileScript → Prop
  | .extractFail _ => True
  | .run C failure =>
    match failure with
    | some (j0, _, _) => 1 ≤ j0 ∧ j0 ≤ C
    | none => True

/-- Number of `error` events announcing file `i`. -/
def errorCount (evs : List Event) (i : Nat) : Nat :=
  (evs.filter (fun e => decide (e.etype = EType.error ∧ e.current_file = i))).length

/-- Number of `completed` progress events announcing file `i`. -/
def completedCount (evs : List Event) (i : Nat) : Nat :=
  (evs.filter (fun e => decide (e.etype = EType.progress ∧
    e.status = some FStatus.completed ∧ e.current_file = i))).length

/-- The overall percentages carried by a list of events, in order. -/
def pcts (evs : List Event) : List Int := evs.filterMap Event.percentage

/-! ## Orchestrator lemmas -/

/-- Setting the slot just appended rewrites the appended element. -/
lemma set_last {α : Type} (l : List α) (x y : α) :
    (l ++ [x]).set l.length y = l ++ [y] := by
  induction l with
  | nil => rfl
  | cons a t ih =>
    simp only [List.cons_append, List.length_cons, List.set_cons_succ, ih]

/-- Reading the slot just appended returns the appended element. -/
lemma getD_last {α : Type} (l : List α) (x d : α) :
    (l ++ [x]).getD l.length d = x := by
  induction l with
  | nil => rfl
  | cons a t ih =>
    simp only [List.cons_append, List.length_cons, List.getD_cons_succ]
    exact ih

/-- A filter over elements all rejected is empty. -/
lemma filter_length_zero {α : Type} (p : α → Bool) (l : List α)
    (h : ∀ x ∈ l, p x = false) : (l.filter p).length = 0 := by
  have he : l.filter p = [] := List.filter_eq_nil_iff.mpr (by
    intro x hx
    simp [h x hx])
  rw [he]
  rfl

/-- Error-event counting distributes over append. -/
lemma errorCount_append (l1 l2 : List Event) (i : Nat) :
    errorCount (l1 ++ l2) i = errorCount l1 i + errorCount l2 i := by
  unfold errorCount
  rw [List.filter_append, List.length_append]

/-- Completed-event counting distributes over append. -/
lemma completedCount_append (l1 l2 : List Event) (i : Nat) :
    completedCount (l1 ++ l2) i = completedCount l1 i + completedCount l2 i := by
  unfold completedCount
  rw [List.filter_append, List.length_append]

/-- Error-event counting over a cons. -/
lemma errorCount_cons (e : Event) (evs : List Event) (i : Nat) :
    errorCount (e :: evs) i =
      (if e.etype = EType.error ∧ e.current_file = i then 1 else 0)
        + errorCount evs i := by
  unfold errorCount
  rw [List.filter_cons]
  by_cases h : e.etype = EType.error ∧ e.current_file = i
  · simp [h, Nat.add_comm]
  · simp [h]

/-- Completed-event counting over a cons. -/
lemma completedCount_cons (e : Event) (evs : List Event) (i : Nat) :
    completedCount (e :: evs) i =
      (if e.etype = EType.progress ∧ e.status = some FStatus.completed ∧
          e.current_file = i then 1 else 0)
        + completedCount evs i := by
  unfold completedCount
  rw [List.filter_cons]
  by_cases h : e.etype = EType.progress ∧ e.status = some FStatus.completed ∧
      e.current_file = i
  · simp [h, Nat.add_comm]
  · simp [h]

/-- No error events among events of another file or of progress type. -/
lemma errorCount_eq_zero (evs : List Event) (i : Nat)
    (h : ∀ e ∈ evs, e.etype ≠ EType.error ∨ e.current_file ≠ i) :
    errorCount evs i = 0 := by
  apply filter_length_zero
  intro e he
  rcases h e he with h' | h' <;> simp [h']

/-- No completed events among events of another file or of another
status. -/
lemma completedCount_eq_zero (evs : List Event) (i : Nat)
    (h : ∀ e ∈ evs, e.etype ≠ EType.progress ∨
      e.status ≠ some FStatus.completed ∨ e.current_file ≠ i) :
    completedCount evs i = 0 := by
  apply filter_length_zero
  intro e he
  rcases h e he with h' | h' | h' <;> simp [h']

/-- Summary of the per-chunk loop: every event announces file `i` and is
not `complete`-typed, the detail list keeps its shape with only slot
`i-1` rewritten, a failed run emits exactly one `error` event and a
successful one none, no `completed` event is ever emitted inside the
loop, and the run fails exactly when the declared failure index falls
among the iterated chunks. -/
lemma chunkEventsLoop_summary (p : PctModel) (F i C : Nat)
    (failure : Option (Nat × Bool × String)) :
    ∀ (remaining j : Nat) (pre : List FileDetail) (d0 : FileDetail),
      pre.length = i - 1 → 1 ≤ i →
      (∀ e ∈ (chunkEventsLoop p F i C failure (pre ++ [d0]) j remaining).1,
          e.current_file = i ∧ e.etype ≠ EType.complete) ∧
      (∃ dlast,
        (chunkEventsLoop p F i C failure (pre ++ [d0]) j remaining).2.1 =
          pre ++ [dlast] ∧
        ((chunkEventsLoop p F i C failure (pre ++ [d0]) j remaining).2.2 = false →
          dlast.status = FStatus.failed)) ∧
      ((chunkEventsLoop p F i C failure (pre ++ [d0]) j remaining).2.2 = true →
        errorCount (chunkEventsLoop p F i C failure (pre ++ [d0]) j remaining).1 i = 0) ∧
      ((chunkEventsLoop p F i C failure (pre ++ [d0]) j remaining).2.2 = false →
        errorCount (chunkEventsLoop p F i C failure (pre ++ [d0]) j remaining).1 i = 1) ∧
      completedCount (chunkEventsLoop p F i C failure (pre ++ [d0]) j remaining).1 i = 0 ∧
      ((chunkEventsLoop p F i C failure (pre ++ [d0]) j remaining).2.2 = false ↔
        ∃ j0 b m, failure = some (j0, b, m) ∧ j ≤ j0 ∧ j0 < j + remaining) := by
  intro remaining
  induction remaining with
  | zero =>
    intro j pre d0 hpre hi
    refine ⟨by simp [chunkEventsLoop], ⟨d0, rfl, by simp [chunkEventsLoop]⟩,
      fun _ => rfl, by simp [chunkEventsLoop], rfl, ?_⟩
    simp only [chunkEventsLoop]
    constructor
    · intro h
      simp at h
    · rintro ⟨j0, b, m, hf, h1, h2⟩
      omega
  | succ remaining ih =>
    intro j pre d0 hpre hi
    have hset1 : ∀ d : FileDetail, (pre ++ [d0]).set (i - 1) d = pre ++ [d] := by
      intro d
      rw [← hpre, set_last]
    simp only [chunkEventsLoop, hset1]
    cases hfail : (match failure with
      | some (j0, _, msg) => if j0 = j then some msg else none
      | none => (none : Option String)) with
    | some msg =>
      have hset2 : ∀ d d' : FileDetail, (pre ++ [d]).set (i - 1) d' = pre ++ [d'] := by
        intro d d'
        rw [← hpre, set_last]
      simp only [hset2]
      obtain ⟨j0, b, m, hfs, hj0⟩ : ∃ j0 b m, failure = some (j0, b, m) ∧ j0 = j := by
        cases failure with
        | none => simp at hfail
        | some t =>
          obtain ⟨j0, b, m⟩ := t
          by_cases hj : j0 = j
          · exact ⟨j0, b, m, rfl, hj⟩
          · simp [hj] at hfail
      refine ⟨?_, ⟨_, rfl, fun _ => rfl⟩, by simp, fun _ => ?_, ?_, ?_⟩
      · intro e he
        simp only [List.mem_cons, List.not_mem_nil, or_false] at he
        rcases he with rfl | rfl
        · exact ⟨rfl, by simp⟩
        · exact ⟨rfl, by simp⟩
      · rw [errorCount_cons, errorCount_cons]
        simp [errorCount]
      · rw [completedCount_cons, completedCount_cons]
        simp [completedCount]
      · constructor
        · intro _
          exact ⟨j0, b, m, hfs, by omega, by omega⟩
        · intro _
          trivial
    | none =>
      have hset2 : ∀ d d' : FileDetail, (pre ++ [d]).set (i - 1) d' = pre ++ [d'] := by
        intro d d'
        rw [← hpre, set_last]
      simp only [hset2]
      obtain ⟨hev, ⟨dlast, hds, hdf⟩, hok0, hok1, hcc, hiff⟩ :=
        ih (j + 1) pre _ hpre hi
      refine ⟨?_, ⟨dlast, hds, hdf⟩, ?_, ?_, ?_, ?_⟩
      · intro e he
        simp only [List.mem_cons] at he
        rcases he with rfl | rfl | he
        · exact ⟨rfl, by simp⟩
        · exact ⟨rfl, by simp⟩
        · exact hev e he
      · intro hok
        rw [errorCount_cons, errorCount_cons, hok0 hok]
        simp
      · intro hok
        rw [errorCount_cons, errorCount_cons, hok1 hok]
        simp
      · rw [completedCount_cons, completedCount_cons, hcc]
        simp
      · rw [hiff]
        constructor
        · rintro ⟨j0, b, m, hfs, h1, h2⟩
          exact ⟨j0, b, m, hfs, by omega, by omega⟩
        · rintro ⟨j0, b, m, hfs, h1, h2⟩
          refine ⟨j0, b, m, hfs, ?_, by omega⟩
          rcases Nat.eq_or_lt_of_le h1 with he | hlt
          · exfalso
            subst hfs
            rw [← he] at hfail
            simp at hfail
          · omega

/-- Summary of one file's processing: every event announces file `i` and
none is `complete`-typed, exactly one detail is appended (failed or
completed according to the script), and the file yields exactly one
`error` event and no `completed` event when it fails, no `error` event
and exactly one `completed` event otherwise. -/
lemma fileEvents_summary (p : PctModel) (F i : Nat) (script : FileScript)
    (ds : List FileDetail) (hi : 1 ≤ i)
    (hlen : ds.length = i - 1) :
    (∀ e ∈ (fileEvents p F i script ds).1,
        e.current_file = i ∧ e.etype ≠ EType.complete) ∧
    (∃ dlast, (fileEvents p F i script ds).2 = ds ++ [dlast] ∧
      dlast.status =
        (if scriptFails script then FStatus.failed else FStatus.completed)) ∧
    errorCount (fileEvents p F i script ds).1 i =
      (if scriptFails script then 1 else 0) ∧
    completedCount (fileEvents p F i script ds).1 i =
      (if scriptFails script then 0 else 1) := by
  have hset : ∀ d d' : FileDetail, (ds ++ [d]).set (i - 1) d' = ds ++ [d'] := by
    intro d d'
    rw [← hlen, set_last]
  cases script with
  | extractFail msg =>
    simp only [fileEvents, hset, scriptFails, if_true]
    refine ⟨?_, ⟨_, rfl, rfl⟩, ?_, ?_⟩
    · intro e he
      simp only [List.mem_cons, List.not_mem_nil, or_false] at he
      rcases he with rfl | rfl
      · exact ⟨rfl, by simp⟩
      · exact ⟨rfl, by simp⟩
    · rw [errorCount_cons, errorCount_cons]
      simp [errorCount]
    · rw [completedCount_cons, completedCount_cons]
      simp [completedCount]
  | run C failure =>
    obtain ⟨hev, ⟨dlast, hds, hdf⟩, hok0, hok1, hcc, hiff⟩ :=
      chunkEventsLoop_summary p F i C failure C 1 ds (chunksInit C) hlen hi
    have hfails :
        (chunkEventsLoop p F i C failure
          (ds ++ [chunksInit C]) 1 C).2.2 = false ↔
          scriptFails (.run C failure) = true := by
      rw [hiff]
      cases failure with
      | none => simp [scriptFails]
      | some t =>
        obtain ⟨j0, b, m⟩ := t
        simp only [scriptFails, decide_eq_true_eq]
        constructor
        · rintro ⟨j0', b', m', heq, h1, h2⟩
          cases heq
          exact ⟨h1, by omega⟩
        · rintro ⟨h1, h2⟩
          exact ⟨j0, b, m, rfl, h1, by omega⟩
    simp only [fileEvents, hset]
    rcases hloop : chunkEventsLoop p F i C failure
        (ds ++ [chunksInit C]) 1 C with ⟨evs, ds1, ok⟩
    rw [hloop] at hev hds hdf hok0 hok1 hcc hfails
    cases ok with
    | false =>
      dsimp only at hev hds hdf hok0 hok1 hcc hfails ⊢
      have hsf : scriptFails (.run C failure) = true := hfails.mp rfl
      rw [hsf]
      refine ⟨?_, ⟨dlast, hds, hdf rfl⟩, ?_, ?_⟩
      · intro e he
        simp only [List.mem_cons] at he
        rcases he with rfl | he
        · exact ⟨rfl, by simp⟩
        · exact hev e he
      · rw [errorCount_cons, hok1 rfl]
        simp
      · rw [completedCount_cons, hcc]
        simp
    | true =>
      dsimp only at hev hds hdf hok0 hok1 hcc hfails ⊢
      have hsf : scriptFails (.run C failure) = false := by
        cases hq : scriptFails (.run C failure) with
        | false => rfl
        | true => exact absurd (hfails.mpr hq) (by simp)
      rw [hsf, hds, ← hlen, getD_last, set_last]
      constructor
      · intro e he
        rcases List.mem_cons.mp he with rfl | he2
        · exact ⟨rfl, by simp⟩
        · rcases List.mem_append.mp he2 with he3 | he4
          · exact hev e he3
          · have he5 := List.mem_singleton.mp he4
            subst he5
            exact ⟨rfl, by simp⟩
      refine ⟨⟨_, rfl, rfl⟩, ?_, ?_⟩
      · rw [errorCount_append, errorCount_cons, hok0 rfl, errorCount_cons]
        simp [errorCount]
      · rw [completedCount_append, completedCount_cons, hcc, completedCount_cons]
        simp [completedCount]


/-- Summary of the whole per-file loop from file `i` on: events only
announce files `≥ i` and never the terminal type, one detail per script
is appended recording its final status, and each file gets exactly one
`error` event and no `completed` event when failing, no `error` event
and exactly one `completed` event otherwise. -/
lemma filesLoop_summary (p : PctModel) (F : Nat) :
    ∀ (scripts : List FileScript) (i : Nat) (ds : List FileDetail),
      (∀ s ∈ scripts, WfScript s) → 1 ≤ i → ds.length = i - 1 →
      (∀ e ∈ (filesLoop p F i scripts ds).1,
          i ≤ e.current_file ∧ e.etype ≠ EType.complete) ∧
      (∃ newDs, (filesLoop p F i scripts ds).2 = ds ++ newDs ∧
        newDs.length = scripts.length ∧
        ∀ k s, scripts[k]? = some s →
          (newDs.getD k initDetail).status =
            (if scriptFails s then FStatus.failed else FStatus.completed)) ∧
      (∀ k s, scripts[k]? = some s →
        errorCount (filesLoop p F i scripts ds).1 (i + k) =
          (if scriptFails s then 1 else 0) ∧
        completedCount (filesLoop p F i scripts ds).1 (i + k) =
          (if scriptFails s then 0 else 1)) := by
  intro scripts
  induction scripts with
  | nil =>
    intro i ds hwf hi hlen
    refine ⟨by simp [filesLoop], ⟨[], by simp [filesLoop], rfl, ?_⟩, ?_⟩
    · intro k s hk
      simp at hk
    · intro k s hk
      simp at hk
  | cons s0 rest ih =>
    intro i ds hwf hi hlen
    obtain ⟨hev1, ⟨dlast, hds1, hdst⟩, herr1, hcomp1⟩ :=
      fileEvents_summary p F i s0 ds hi hlen
    obtain ⟨hev2, ⟨newDs, hds2, hnlen, hstat⟩, hcnt2⟩ :=
      ih (i + 1) (ds ++ [dlast]) (fun s hs => hwf s (by simp [hs]))
        (by omega) (by simp [List.length_append]; omega)
    simp only [filesLoop]
    rw [hds1]
    refine ⟨?_, ⟨dlast :: newDs, ?_, ?_, ?_⟩, ?_⟩
    · intro e he
      rcases List.mem_append.mp he with he | he
      · obtain ⟨hcf, het⟩ := hev1 e he
        exact ⟨by omega, het⟩
      · obtain ⟨hcf, het⟩ := hev2 e he
        exact ⟨by omega, het⟩
    · rw [hds2, List.append_assoc]
      rfl
    · simp [hnlen]
    · intro k s hk
      cases k with
      | zero =>
        simp only [List.getElem?_cons_zero, Option.some_inj] at hk
        subst hk
        simpa [List.getD] using hdst
      | succ k =>
        simp only [List.getElem?_cons_succ] at hk
        simpa [List.getD] using hstat k s hk
    · intro k s hk
      cases k with
      | zero =>
        simp only [List.getElem?_cons_zero, Option.some_inj] at hk
        subst hk
        constructor
        · rw [errorCount_append, Nat.add_zero, herr1,
            errorCount_eq_zero _ _ (fun e he => Or.inr (by
              have := (hev2 e he).1
              omega))]
          omega
        · rw [completedCount_append, Nat.add_zero, hcomp1,
            completedCount_eq_zero _ _ (fun e he => Or.inr (Or.inr (by
              have := (hev2 e he).1
              omega)))]
          omega
      | succ k =>
        simp only [List.getElem?_cons_succ] at hk
        obtain ⟨he2, hc2⟩ := hcnt2 k s hk
        have hidx : i + (k + 1) = (i + 1) + k := by omega
        constructor
        · rw [errorCount_append, hidx, he2,
            errorCount_eq_zero _ _ (fun e he => Or.inr (by
              have := (hev1 e he).1
              omega))]
          omega
        · rw [completedCount_append, hidx, hc2,
            completedCount_eq_zero _ _ (fun e he => Or.inr (Or.inr (by
              have := (hev1 e he).1
              omega)))]
          omega

/-- The last element of a list with one appended. -/
lemma getLast?_append_singleton {α : Type} (l : List α) (x : α) :
    (l ++ [x]).getLast? = some x := by
  exact List.getLast?_concat _

/-- Claim C1: in any job, a failing file (extraction, embedding or
storage failure) is marked `failed` in the final detail list and gets
exactly one `error` event, every non-failing file is processed to
completion (exactly one `completed` progress event and a `completed`
final detail, with no `error` event), and the job is never aborted: the
stream always ends with the terminal `complete` event. -/
theorem orchestrator_error_isolation (scripts : List FileScript)
    (hwf : ∀ s ∈ scripts, WfScript s) :
    (∀ k s, scripts[k]? = some s →
      errorCount (generate_progress floatPct scripts) (k + 1) =
        (if scriptFails s then 1 else 0) ∧
      completedCount (generate_progress floatPct scripts) (k + 1) =
        (if scriptFails s then 0 else 1) ∧
      ((filesLoop floatPct scripts.length 1 scripts []).2.getD k
          initDetail).status =
        (if scriptFails s then FStatus.failed else FStatus.completed))
    ∧ (generate_progress floatPct scripts).getLast? =
        some (completeEvent scripts.length) := by
  obtain ⟨hev, ⟨newDs, hds, hnlen, hstat⟩, hcnt⟩ :=
    filesLoop_summary floatPct scripts.length scripts 1 [] hwf (by omega) rfl
  constructor
  · intro k s hk
    obtain ⟨he, hc⟩ := hcnt k s hk
    have hone : 1 + k = k + 1 := by omega
    rw [hone] at he hc
    have hcz : errorCount [completeEvent scripts.length] (k + 1) = 0 := by
      apply errorCount_eq_zero
      intro e hee
      simp only [List.mem_singleton] at hee
      subst hee
      exact Or.inl (by simp [completeEvent])
    have hcz2 : completedCount [completeEvent scripts.length] (k + 1) = 0 := by
      apply completedCount_eq_zero
      intro e hee
      simp only [List.mem_singleton] at hee
      subst hee
      exact Or.inl (by simp [completeEvent])
    refine ⟨?_, ?_, ?_⟩
    · unfold generate_progress
      rw [errorCount_append, he, hcz]
      omega
    · unfold generate_progress
      rw [completedCount_append, hc, hcz2]
      omega
    · rw [hds]
      simpa using hstat k s hk
  · unfold generate_progress
    exact getLast?_append_singleton _ _

/-- Concrete three-file job for the witness: a success with 2 chunks, an
extraction failure, and a storage failure at chunk 1 of 1. -/
def witnessJob : List FileScript :=
  [FileScript.run 2 none, FileScript.extractFail ("boom"),
   FileScript.run 1 (some (1, false, ("db down")))]

/-- Witness for `orchestrator_error_isolation` on `witnessJob`: its
second file (which fails extraction) gets exactly one error event. -/
theorem orchestrator_error_isolation_witness :
    errorCount (generate_progress floatPct witnessJob) (1 + 1) =
      (if scriptFails (FileScript.extractFail ("boom")) then 1 else 0) :=
  ((orchestrator_error_isolation witnessJob (by
      intro s hs
      simp only [witnessJob, List.mem_cons, List.not_mem_nil, or_false] at hs
      rcases hs with rfl | rfl | rfl
      · trivial
      · trivial
      · exact ⟨le_refl 1, le_refl 1⟩)).1
    1 (FileScript.extractFail ("boom")) rfl).1

/-! ## Exact-arithmetic monotonicity of the progress percentages -/

/-- Chunk percentage grows with the chunk index. -/
lemma exact_chunk_mono (F i C : Nat) {j j' : Nat} (h : j ≤ j') :
    exactPct.chunkPct F i C j ≤ exactPct.chunkPct F i C j' := by
  simp only [exactPct]
  exact_mod_cast Nat.div_le_div_right
    (Nat.mul_le_mul_right 100 (Nat.add_le_add_left h _))

/-- The processing percentage bounds every chunk percentage from
below. -/
lemma exact_lo_le_chunk (F i C j : Nat) (hC : 1 ≤ C) :
    exactPct.processing F i ≤ exactPct.chunkPct F i C j := by
  simp only [exactPct]
  have heq : (i - 1) * 100 / F = ((i - 1) * C) * 100 / (C * F) := by
    have h2 : ((i - 1) * C) * 100 = C * ((i - 1) * 100) := by ring
    rw [h2, Nat.mul_div_mul_left _ _ hC]
  rw [heq]
  exact_mod_cast Nat.div_le_div_right
    (Nat.mul_le_mul_right 100 (Nat.le_add_right _ _))

/-- The completion percentage bounds every chunk percentage from
above. -/
lemma exact_chunk_le_completed (F i C j : Nat) (hj : j ≤ C) (hC : 1 ≤ C)
    (hi : 1 ≤ i) :
    exactPct.chunkPct F i C j ≤ exactPct.completed F i := by
  simp only [exactPct]
  have heq : i * 100 / F = (i * C) * 100 / (C * F) := by
    have h2 : (i * C) * 100 = C * (i * 100) := by ring
    rw [h2, Nat.mul_div_mul_left _ _ hC]
  rw [heq]
  have hnum : (i - 1) * C + j ≤ i * C := by
    have : (i - 1) * C + C = i * C := by
      cases i with
      | zero => omega
      | succ n =>
        rw [Nat.succ_sub_one, Nat.succ_mul]
    omega
  exact_mod_cast Nat.div_le_div_right (Nat.mul_le_mul_right 100 hnum)

/-- The processing percentage grows with the file index. -/
lemma exact_processing_mono (F : Nat) {i i' : Nat} (h : i ≤ i') :
    exactPct.processing F i ≤ exactPct.processing F i' := by
  simp only [exactPct]
  exact_mod_cast Nat.div_le_div_right
    (Nat.mul_le_mul_right 100 (by omega))

/-- Processing never exceeds completion of the same file. -/
lemma exact_processing_le_completed (F i : Nat) :
    exactPct.processing F i ≤ exactPct.completed F i := by
  simp only [exactPct]
  exact_mod_cast Nat.div_le_div_right (Nat.mul_le_mul_right 100 (by omega))

/-- Completing file `i` reports the same percentage as starting file
`i + 1`. -/
lemma exact_completed_eq_processing_succ (F i : Nat) :
    exactPct.completed F i = exactPct.processing F (i + 1) := by
  simp [exactPct]

/-- Completion percentages stay at or below 100. -/
lemma exact_completed_le_100 (F i : Nat) (hiF : i ≤ F) (hF : 1 ≤ F) :
    exactPct.completed F i ≤ 100 := by
  simp only [exactPct]
  have h1 : i * 100 / F ≤ F * 100 / F :=
    Nat.div_le_div_right (Nat.mul_le_mul_right 100 hiF)
  have h2 : F * 100 / F = 100 := Nat.mul_div_cancel_left 100 (by omega)
  exact_mod_cast h2 ▸ h1

/-- Concatenating two non-decreasing percentage runs separated by a
bound stays non-decreasing. -/
lemma chain'_le_append_of_bounds {l1 l2 : List Int} (B : Int)
    (h1 : List.Chain' (· ≤ ·) l1) (h2 : List.Chain' (· ≤ ·) l2)
    (hb1 : ∀ x ∈ l1, x ≤ B) (hb2 : ∀ y ∈ l2, B ≤ y) :
    List.Chain' (· ≤ ·) (l1 ++ l2) := by
  rw [List.chain'_append]
  refine ⟨h1, h2, fun x hx y hy => ?_⟩
  exact le_trans (hb1 x (List.mem_of_mem_getLast? hx))
    (hb2 y (List.mem_of_mem_head? hy))

/-- Percentages of the per-chunk loop under exact arithmetic: a
non-decreasing run bounded between the current chunk's percentage and
the file's completion percentage. -/
lemma chunkEventsLoop_pcts (F i C : Nat)
    (failure : Option (Nat × Bool × String)) (hi : 1 ≤ i) :
    ∀ (remaining j : Nat) (ds : List FileDetail), 1 ≤ j →
      j + remaining = C + 1 →
      List.Chain' (· ≤ ·)
        (pcts (chunkEventsLoop exactPct F i C failure ds j remaining).1) ∧
      ∀ x ∈ pcts (chunkEventsLoop exactPct F i C failure ds j remaining).1,
        exactPct.processing F i ≤ x ∧ exactPct.chunkPct F i C j ≤ x ∧
          x ≤ exactPct.completed F i := by
  intro remaining
  induction remaining with
  | zero =>
    intro j ds hj hsum
    exact ⟨by simp [chunkEventsLoop, pcts], by simp [chunkEventsLoop, pcts]⟩
  | succ remaining ih =>
    intro j ds hj hsum
    have hjC : j ≤ C := by omega
    have hC : 1 ≤ C := by omega
    simp only [chunkEventsLoop]
    cases hfail : (match failure with
      | some (j0, _, msg) => if j0 = j then some msg else none
      | none => (none : Option String)) with
    | some msg =>
      dsimp only
      constructor
      · simp [pcts, List.filterMap_cons]
      · intro x hx
        simp only [pcts, List.filterMap_cons, Event.percentage] at hx
        simp only [List.filterMap_nil, List.mem_singleton] at hx
        subst hx
        exact ⟨exact_lo_le_chunk F i C j hC, le_refl _,
          exact_chunk_le_completed F i C j hjC hC hi⟩
    | none =>
      dsimp only
      obtain ⟨hch, hbd⟩ := ih (j + 1) _ (by omega) (by omega)
      have hmono : exactPct.chunkPct F i C j ≤ exactPct.chunkPct F i C (j + 1) :=
        exact_chunk_mono F i C (by omega)
      constructor
      · simp only [pcts, List.filterMap_cons, Event.percentage]
        rw [List.chain'_cons']
        refine ⟨fun y hy => ?_, ?_⟩
        · simp only [List.head?_cons, Option.mem_def, Option.some_inj] at hy
          omega
        · rw [List.chain'_cons']
          refine ⟨fun y hy => ?_, hch⟩
          have hmem := List.mem_of_mem_head? hy
          exact le_trans hmono (hbd y hmem).2.1
      · intro x hx
        simp only [pcts, List.filterMap_cons, Event.percentage,
          List.mem_cons] at hx
        rcases hx with rfl | rfl | hx
        · exact ⟨exact_lo_le_chunk F i C j hC, le_refl _,
            exact_chunk_le_completed F i C j hjC hC hi⟩
        · exact ⟨exact_lo_le_chunk F i C j hC, le_refl _,
            exact_chunk_le_completed F i C j hjC hC hi⟩
        · obtain ⟨hp, hl, hr⟩ := hbd x hx
          exact ⟨hp, le_trans hmono hl, hr⟩

/-- Percentages of one file's events under exact arithmetic: a
non-decreasing run bounded between the file's processing and completion
percentages. -/
lemma fileEvents_pcts (F i : Nat) (script : FileScript)
    (ds : List FileDetail) (hi : 1 ≤ i) (hlen : ds.length = i - 1) :
    List.Chain' (· ≤ ·) (pcts (fileEvents exactPct F i script ds).1) ∧
    ∀ x ∈ pcts (fileEvents exactPct F i script ds).1,
      exactPct.processing F i ≤ x ∧ x ≤ exactPct.completed F i := by
  have hset : ∀ d d' : FileDetail, (ds ++ [d]).set (i - 1) d' = ds ++ [d'] := by
    intro d d'
    rw [← hlen, set_last]
  cases script with
  | extractFail msg =>
    simp only [fileEvents, hset]
    constructor
    · simp [pcts, List.filterMap_cons, Event.percentage]
    · intro x hx
      simp only [pcts, List.filterMap_cons, Event.percentage,
        List.filterMap_nil, List.mem_singleton] at hx
      subst hx
      exact ⟨le_refl _, exact_processing_le_completed F i⟩
  | run C failure =>
    simp only [fileEvents, hset]
    obtain ⟨hch, hbd⟩ :=
      chunkEventsLoop_pcts F i C failure hi C 1 (ds ++ [chunksInit C])
        (by omega) (by omega)
    rcases hloop : chunkEventsLoop exactPct F i C failure
        (ds ++ [chunksInit C]) 1 C with ⟨evs, ds1, ok⟩
    rw [hloop] at hch hbd
    cases ok with
    | false =>
      dsimp only at hch hbd ⊢
      constructor
      · simp only [pcts, List.filterMap_cons, Event.percentage]
        rw [List.chain'_cons']
        refine ⟨fun y hy => ?_, hch⟩
        exact (hbd y (List.mem_of_mem_head? hy)).1
      · intro x hx
        simp only [pcts, List.filterMap_cons, Event.percentage,
          List.mem_cons] at hx
        rcases hx with rfl | hx
        · exact ⟨le_refl _, exact_processing_le_completed F i⟩
        · exact ⟨(hbd x hx).1, (hbd x hx).2.2⟩
    | true =>
      dsimp only at hch hbd ⊢
      have hsplit : pcts
          (({ etype := EType.progress, status := some FStatus.processing,
              current_file := i, percentage := some (exactPct.processing F i),
              file_details := ds ++ [initDetail] } :: evs) ++
            [{ etype := EType.progress, status := some FStatus.completed,
               current_file := i, percentage := some (exactPct.completed F i),
               file_details := ds1.set (i - 1)
                 { status := FStatus.completed,
                   chunks_total := (ds1.getD (i - 1) initDetail).chunks_total,
                   chunks_done := (ds1.getD (i - 1) initDetail).chunks_done,
                   percentage := 100,
                   error := (ds1.getD (i - 1) initDetail).error } }]) =
          (exactPct.processing F i :: pcts evs) ++ [exactPct.completed F i] := by
        unfold pcts
        rw [List.filterMap_append, List.filterMap_cons]
        rfl
      rw [hsplit]
      constructor
      · apply chain'_le_append_of_bounds (exactPct.completed F i)
        · rw [List.chain'_cons']
          refine ⟨fun y hy => ?_, hch⟩
          exact (hbd y (List.mem_of_mem_head? hy)).1
        · simp
        · intro x hx
          rcases List.mem_cons.mp hx with rfl | hx
          · exact exact_processing_le_completed F i
          · exact (hbd x hx).2.2
        · intro y hy
          rcases List.mem_singleton.mp hy with rfl
          exact le_refl _
      · intro x hx
        rcases List.mem_append.mp hx with hx | hx
        · rcases List.mem_cons.mp hx with rfl | hx
          · exact ⟨le_refl _, exact_processing_le_completed F i⟩
          · exact ⟨(hbd x hx).1, (hbd x hx).2.2⟩
        · rcases List.mem_singleton.mp hx with rfl
          exact ⟨exact_processing_le_completed F i, le_refl _⟩

/-- One file's processing appends exactly one detail. -/
lemma fileEvents_ds_shape (p : PctModel) (F i : Nat) (script : FileScript)
    (ds : List FileDetail) (hi : 1 ≤ i) (hlen : ds.length = i - 1) :
    ∃ dlast, (fileEvents p F i script ds).2 = ds ++ [dlast] := by
  obtain ⟨_, ⟨dlast, hds, _⟩, _, _⟩ := fileEvents_summary p F i script ds hi hlen
  exact ⟨dlast, hds⟩

/-- Percentages of the whole per-file loop under exact arithmetic: a
non-decreasing run bounded between the first file's processing
percentage and 100. -/
lemma filesLoop_pcts (F : Nat) :
    ∀ (scripts : List FileScript) (i : Nat) (ds : List FileDetail),
      1 ≤ i → ds.length = i - 1 → i + scripts.length = F + 1 →
      List.Chain' (· ≤ ·) (pcts (filesLoop exactPct F i scripts ds).1) ∧
      ∀ x ∈ pcts (filesLoop exactPct F i scripts ds).1,
        exactPct.processing F i ≤ x ∧ x ≤ 100 := by
  intro scripts
  induction scripts with
  | nil =>
    intro i ds h1 h2 h3
    exact ⟨by simp [filesLoop, pcts], by simp [filesLoop, pcts]⟩
  | cons s rest ih =>
    intro i ds h1 h2 h3
    simp only [List.length_cons] at h3
    obtain ⟨hch1, hbd1⟩ := fileEvents_pcts F i s ds h1 h2
    obtain ⟨dlast, hds1⟩ := fileEvents_ds_shape exactPct F i s ds h1 h2
    obtain ⟨hch2, hbd2⟩ := ih (i + 1) (ds ++ [dlast]) (by omega)
      (by simp [List.length_append]; omega) (by omega)
    simp only [filesLoop]
    rw [hds1]
    have happ : pcts ((fileEvents exactPct F i s ds).1 ++
        (filesLoop exactPct F (i + 1) rest (ds ++ [dlast])).1) =
        pcts (fileEvents exactPct F i s ds).1 ++
          pcts (filesLoop exactPct F (i + 1) rest (ds ++ [dlast])).1 :=
      List.filterMap_append _ _ _
    rw [happ]
    constructor
    · apply chain'_le_append_of_bounds (exactPct.completed F i) hch1 hch2
      · intro x hx
        exact (hbd1 x hx).2
      · intro y hy
        rw [exact_completed_eq_processing_succ]
        exact (hbd2 y hy).1
    · intro x hx
      rcases List.mem_append.mp hx with hx | hx
      · refine ⟨(hbd1 x hx).1, ?_⟩
        exact le_trans (hbd1 x hx).2
          (exact_completed_le_100 F i (by omega) (by omega))
      · obtain ⟨hl, hr⟩ := hbd2 x hx
        exact ⟨le_trans (exact_processing_mono F (by omega)) hl, hr⟩

/-- Claim C3 (amended): with the percentage formulas evaluated in exact
arithmetic — `⌊100·((i-1)/F)⌋`, `⌊100·((i-1)/F + j/(C·F))⌋`,
`⌊100·(i/F)⌋`, as §4.5 of the specification writes them — the overall
percentages of the successive events of any job form a non-decreasing
sequence; the implementation's float evaluation violates this
(`orchestrator_pct_claim_cex`). -/
theorem orchestrator_pct_monotone_exact (scripts : List FileScript) :
    List.Chain' (· ≤ ·) (pcts (generate_progress exactPct scripts)) := by
  unfold generate_progress
  have happ : pcts ((filesLoop exactPct scripts.length 1 scripts []).1 ++
      [completeEvent scripts.length]) =
      pcts (filesLoop exactPct scripts.length 1 scripts []).1 ++ [(100 : Int)] := by
    unfold pcts
    rw [List.filterMap_append]
    rfl
  rw [happ]
  obtain ⟨hch, hbd⟩ :=
    filesLoop_pcts scripts.length scripts 1 [] (by omega) rfl (by omega)
  apply chain'_le_append_of_bounds (100 : Int) hch (by simp)
  · intro x hx
    exact (hbd x hx).2
  · intro y hy
    rcases List.mem_singleton.mp hy with rfl
    exact le_refl _

/-- Boolean check that a percentage sequence never decreases. -/
def nonDecr : List Int → Bool
  | [] => true
  | [_] => true
  | a :: b :: rest => decide (a ≤ b) && nonDecr (b :: rest)

/-- A non-decreasing chain passes the boolean check. -/
lemma nonDecr_eq_true_of_chain' :
    ∀ {l : List Int}, List.Chain' (· ≤ ·) l → nonDecr l = true := by
  intro l
  induction l with
  | nil => intro _; rfl
  | cons a t ih =>
    cases t with
    | nil => intro _; rfl
    | cons b rest =>
      intro h
      rw [List.chain'_cons] at h
      simp [nonDecr, h.1, ih h.2]

/-- A fifty-file job whose 29th file has one chunk: the file's chunk
events report 58 percent but its completion event reports 57 percent
(`int(29/50*100) = 57` in binary64), so the stream's percentages
decrease. -/
def cexScripts : List FileScript :=
  (List.replicate 28 (FileScript.extractFail ("e"))) ++ [FileScript.run 1 none]
    ++ (List.replicate 21 (FileScript.extractFail ("e")))

set_option maxRecDepth 10000 in
/-- Claim C3, counterexample: the percentages the source emits (Python
float arithmetic) are not non-decreasing on `cexScripts`. -/
theorem orchestrator_pct_claim_cex :
    ¬ List.Chain' (· ≤ ·) (pcts (generate_progress floatPct cexScripts)) := by
  intro hc
  have h1 : nonDecr (pcts (generate_progress floatPct cexScripts)) = true :=
    nonDecr_eq_true_of_chain' hc
  have h2 : nonDecr (pcts (generate_progress floatPct cexScripts)) = false := by
    decide
  rw [h1] at h2
  cases h2

end Aithen
